import Mathlib

/-!
Verification development for the RepoMuse repository-analysis and
project-discovery engine (`src-tauri/src/{analysis,cache,fs_utils,projects}.rs`).

The Rust source is shallowly embedded: the filesystem is an inductive tree,
`walkdir::WalkDir` traversals become explicit preorder walks, the three
path-keyed caches become association lists, `u64` subtraction becomes wrapping
subtraction on `Nat`, and Rust `String` values become Lean `String` values with
byte lengths computed through UTF-8 character widths.
-/

set_option maxRecDepth 1000

namespace RepoMuse

/-! ## String helpers mirroring the Rust standard library -/

/-- The backslash character, used by `should_analyze_file` for Windows paths. -/
def backslashChar : Char := Char.ofNat 92

/-- The double-quote character, trimmed by the Cargo.toml description parse. -/
def quoteChar : Char := Char.ofNat 34

/-- Does the character list start with the given prefix list? -/
def listStartsWith : List Char → List Char → Bool
  | _, [] => true
  | [], _ :: _ => false
  | c :: cs, p :: ps => c == p && listStartsWith cs ps

/-- Rust `str::starts_with`. -/
def strStartsWith (s pre : String) : Bool := listStartsWith s.data pre.data

/-- Rust `str::ends_with`. -/
def strEndsWith (s suf : String) : Bool :=
  listStartsWith s.data.reverse suf.data.reverse

/-- Does `sub` occur as a contiguous run of the list? -/
def listContainsSub (sub : List Char) : List Char → Bool
  | [] => listStartsWith [] sub
  | c :: cs => listStartsWith (c :: cs) sub || listContainsSub sub cs

/-- Substring test: Rust `str::contains`. -/
def containsSub (s sub : String) : Bool := listContainsSub sub.data s.data

/-- Split a character list at every occurrence of `sep`:
Rust `str::split(sep)` for a one-character pattern. -/
def splitOnChar (sep : Char) : List Char → List (List Char)
  | [] => [[]]
  | c :: cs =>
    if c == sep then [] :: splitOnChar sep cs
    else
      match splitOnChar sep cs with
      | [] => [[c]]
      | l :: ls => (c :: l) :: ls

/-- Last `/`-separated component of a path: Rust `Path::file_name` on Unix
(the walked paths never end in a separator). -/
def fileNameOf (path : String) : String :=
  String.mk ((splitOnChar '/' path.data).getLastD [])

/-- Rust `Path::extension`: the portion of the file name after the final dot;
none when the file name has no dot beyond a leading one. -/
def rustExtension (path : String) : Option String :=
  let name := (splitOnChar '/' path.data).getLastD []
  let stem :=
    match name with
    | '.' :: rest => rest
    | _ => name
  if 2 ≤ (splitOnChar '.' stem).length then
    some (String.mk ((splitOnChar '.' name).getLastD []))
  else none

/-- Strip one trailing carriage return, as `str::lines` does before a
newline. -/
def stripCR (l : List Char) : List Char :=
  match l.getLast? with
  | some c => if c == '\r' then l.dropLast else l
  | none => l

/-- Rust `str::lines`: split on newline, strip a carriage return preceding each
newline, and drop the optional final empty line. -/
def rustLines (s : String) : List String :=
  let parts := splitOnChar '\n' s.data
  let n := parts.length
  let stripped := parts.enum.map (fun p =>
    if p.1 + 1 < n then stripCR p.2 else p.2)
  let noFinal :=
    match stripped.getLast? with
    | some [] => stripped.dropLast
    | _ => stripped
  noFinal.map String.mk

/-- Lexicographic order on character lists: Rust's `Ord` for strings
(UTF-8 byte order coincides with code-point order). -/
def listLexLe : List Char → List Char → Bool
  | [], _ => true
  | _ :: _, [] => false
  | a :: as, b :: bs => if a == b then listLexLe as bs else decide (a < b)

/-- Rust `str::trim` (the common whitespace characters). -/
def rustTrim (s : String) : String :=
  String.mk (((s.data.dropWhile Char.isWhitespace).reverse.dropWhile
    Char.isWhitespace).reverse)

/-- Rust `content.lines().count()`. -/
def rustLinesCount (s : String) : Nat := (rustLines s).length

/-- Rust `str::trim_matches(c)`: repeatedly strip `c` from both ends. -/
def trimMatchesChar (c : Char) (s : String) : String :=
  String.mk (((s.data.dropWhile (· == c)).reverse.dropWhile (· == c)).reverse)

/-- Rust `str::trim_start_matches(c)`. -/
def trimStartMatchesChar (c : Char) (s : String) : String :=
  String.mk (s.data.dropWhile (· == c))

/-- UTF-8 byte count of a character list. -/
def charBytes : List Char → Nat
  | [] => 0
  | c :: cs => c.utf8Size + charBytes cs

/-- UTF-8 byte length of a string: Rust `String::len`. -/
def utf8Len (s : String) : Nat := charBytes s.data

/-- Take exactly `n` UTF-8 bytes worth of characters from the front of a
character list. `none` models the panic of a Rust byte-slice `&s[..n]` whose
end does not fall on a character boundary (or lies past the end). -/
def takeBytes : List Char → Nat → Option (List Char)
  | _, 0 => some []
  | [], _ + 1 => none
  | c :: cs, n + 1 =>
    if c.utf8Size ≤ n + 1 then
      match takeBytes cs (n + 1 - c.utf8Size) with
      | some l => some (c :: l)
      | none => none
    else none

/-- Total version of the byte-prefix, for stating what a successful slice
returns; defaults to the whole string when the slice would panic. -/
def byteTakeD (s : String) (n : Nat) : String :=
  match takeBytes s.data n with
  | some l => String.mk l
  | none => s

/-- Wrapping `u64` subtraction: the unguarded `now - cached_at` of every cache
freshness test in the source. -/
def U64 : Nat := 2 ^ 64

/-- `a - b` computed in unsigned 64-bit arithmetic (release-mode wrap-around). -/
def u64Sub (a b : Nat) : Nat := (a % U64 + (U64 - b % U64)) % U64

/-! ## Filter / Classifier (`fs_utils.rs`) -/

/-- Binary/media extension blocklist of `should_analyze_file`. -/
def ignore_extensions : List String :=
  ["png", "jpg", "jpeg", "gif", "svg", "ico", "woff", "woff2", "ttf", "eot",
   "pdf", "zip", "tar", "gz"]

/-- Dependency/build/VCS directory blocklist of `should_analyze_file`. -/
def ignore_dirs : List String :=
  ["node_modules", "target", "build", "dist", ".git", ".svn", "vendor", "__pycache__"]

/-- `fs_utils::should_analyze_file`: reject paths containing an ignored
directory segment, then reject blocked extensions; extensionless files pass. -/
def should_analyze_file (path : String) : Bool :=
  let bs := String.singleton backslashChar
  if ignore_dirs.any (fun d =>
      containsSub path ("/" ++ d ++ "/") || containsSub path (bs ++ d ++ bs)) then
    false
  else
    match rustExtension path with
    | some ext => !(ignore_extensions.contains ext)
    | none => true

/-- `fs_utils::get_language_from_extension`. -/
def get_language_from_extension (path : String) : String :=
  match rustExtension path with
  | some "rs" => "Rust"
  | some "js" => "JavaScript"
  | some "jsx" => "JavaScript"
  | some "ts" => "TypeScript"
  | some "tsx" => "TypeScript"
  | some "py" => "Python"
  | some "java" => "Java"
  | some "cpp" => "C++"
  | some "cc" => "C++"
  | some "cxx" => "C++"
  | some "c" => "C"
  | some "go" => "Go"
  | some "php" => "PHP"
  | some "rb" => "Ruby"
  | some "cs" => "C#"
  | some "swift" => "Swift"
  | some "kt" => "Kotlin"
  | some "html" => "HTML"
  | some "css" => "CSS"
  | some "scss" => "SCSS"
  | some "sass" => "SCSS"
  | some "json" => "JSON"
  | some "xml" => "XML"
  | some "yml" => "YAML"
  | some "yaml" => "YAML"
  | some "toml" => "TOML"
  | some "md" => "Markdown"
  | _ => "Unknown"

/-! ## Filesystem model and `WalkDir` traversals -/

/-- A filesystem subtree. A file's `content` is `none` when reading it as text
fails (I/O error or non-UTF-8 bytes). -/
inductive FSEntry : Type where
  | file (name : String) (content : Option String)
  | dir (name : String) (children : List FSEntry)

def FSEntry.name : FSEntry → String
  | .file n _ => n
  | .dir n _ => n

def FSEntry.isFile : FSEntry → Bool
  | .file _ _ => true
  | .dir _ _ => false

def FSEntry.isDir : FSEntry → Bool
  | .file _ _ => false
  | .dir _ _ => true

/-- One entry yielded by a `WalkDir` traversal: its full path, the path of the
directory containing it, its depth below the walk root, and the subtree. -/
structure WEntry where
  path : String
  parent : String
  depth : Nat
  node : FSEntry

/-- Whether a directory at `depth` is descended into under a `max_depth` cap. -/
def withinCap (depth : Nat) : Option Nat → Bool
  | some m => decide (depth < m)
  | none => true

mutual

/-- `WalkDir` preorder traversal from a node whose own path is `path`:
the node itself first, then (for a directory within the depth cap) each child's
traversal in listing order. `cap = some m` models `max_depth(m)`;
`cap = none` models an unbounded walk. -/
def walkAux (path parent : String) (depth : Nat) (cap : Option Nat) :
    FSEntry → List WEntry
  | .file n c => [⟨path, parent, depth, .file n c⟩]
  | .dir n children =>
    ⟨path, parent, depth, .dir n children⟩ ::
      (if withinCap depth cap then walkChildren path depth cap children else [])

/-- Traversals of a directory's children, concatenated in listing order. -/
def walkChildren (dirPath : String) (depth : Nat) (cap : Option Nat) :
    List FSEntry → List WEntry
  | [] => []
  | e :: es =>
    walkAux (dirPath ++ "/" ++ e.name) dirPath (depth + 1) cap e ++
      walkChildren dirPath depth cap es

end

/-- An entry that `count_project_files` and the estimators count: a file whose
path passes the filter. -/
def WEntry.isEligibleFile (w : WEntry) : Bool :=
  w.node.isFile && should_analyze_file w.path

/-! ## Discovery engine: exact count and fast estimate (`projects.rs`) -/

/-- `projects::count_project_files`: unbounded-depth walk counting every
eligible file (the rayon `par_bridge` count equals the sequential count of the
same iterator). -/
def count_project_files (path : String) (e : FSEntry) : Nat :=
  ((walkAux path "" 0 none e).filter (fun w => w.isEligibleFile)).length

/-- `projects::estimate_deep_files`: inspect at most 50 entries of the walk
rooted at `path`, count the eligible files among them, and double the count
when the 50-entry cap was reached. -/
def estimate_deep_files (path : String) (e : FSEntry) : Nat :=
  let es := (walkAux path "" 0 none e).take 50
  let cnt := es.countP (fun w => w.isEligibleFile)
  if 50 ≤ es.length then cnt * 2 else cnt

/-- The fold at the heart of `projects::estimate_file_count`: `cnt` is the
running count and `dctr` the running number of depth-3 directories seen. -/
def estimateFold : List WEntry → Nat → Nat → Nat
  | [], cnt, _ => cnt
  | w :: ws, cnt, dctr =>
    let cnt1 := if w.isEligibleFile then cnt + 1 else cnt
    if w.node.isDir && w.depth == 3 then
      let dctr1 := dctr + 1
      let cnt2 := if dctr1 % 10 == 0 then
        cnt1 + estimate_deep_files w.path w.node * 10
      else cnt1
      estimateFold ws cnt2 dctr1
    else estimateFold ws cnt1 dctr

/-- `projects::estimate_file_count`: depth-3-bounded walk with sampling of
every 10th directory found at exactly depth 3. -/
def estimate_file_count (path : String) (e : FSEntry) : Nat :=
  estimateFold (walkAux path "" 0 (some 3) e) 0 0

/-! ### Reference formulations used by the claims -/

mutual

/-- Independent sequential walk-and-count reference for C1: recursively count
every file of the tree whose full path passes the filter. -/
def refCountFiles (path : String) : FSEntry → Nat
  | .file _ _ => if should_analyze_file path then 1 else 0
  | .dir _ children => refCountList path children

/-- Sum of the reference counts of a directory's children. -/
def refCountList (dirPath : String) : List FSEntry → Nat
  | [] => 0
  | e :: es => refCountFiles (dirPath ++ "/" ++ e.name) e + refCountList dirPath es

end

/-- A directory entry encountered at exactly depth 3 of the bounded walk. -/
def isDirAtDepth3 (w : WEntry) : Bool := w.node.isDir && w.depth == 3

/-- Elements at 1-based positions divisible by 10, counting from position
`d + 1` for the first element. -/
def tenthFrom (d : Nat) (l : List WEntry) : List WEntry :=
  (List.enumFrom d l).filterMap
    (fun p => if (p.1 + 1) % 10 == 0 then some p.2 else none)

/-- Claim C2's sampled count of one depth-3 directory: inspect at most 50
entries of its subtree, count the eligible files among them, and double the
count when the 50-entry cap was reached. -/
def specSample (w : WEntry) : Nat :=
  let es := (walkAux w.path "" 0 none w.node).take 50
  let c := es.countP (fun v => v.isEligibleFile)
  if es.length = 50 then 2 * c else c

/-- Claim-side formulation of the fast estimate (C2): the exact count of
eligible files at depth at most 3, plus, for every 10th directory encountered
at exactly depth 3 in walk order, 10 times its sampled deep count. -/
def estimateSpec (path : String) (e : FSEntry) : Nat :=
  (walkAux path "" 0 (some 3) e).countP (fun w => w.isEligibleFile) +
    ((tenthFrom 0 ((walkAux path "" 0 (some 3) e).filter isDirAtDepth3)).map
      (fun w => 10 * specSample w)).sum

/-! ## Cache entries and TTL freshness tests (`cache.rs`, TTL checks inline) -/

/-- Association-list lookup: `HashMap::get` keyed by the raw path string. -/
def lookupAssoc {α : Type} (m : List (String × α)) (k : String) : Option α :=
  match m with
  | [] => none
  | p :: rest => if p.1 == k then some p.2 else lookupAssoc rest k

/-- Association-list insert: `HashMap::insert` (replaces an existing key). -/
def insertAssoc {α : Type} (m : List (String × α)) (k : String) (v : α) :
    List (String × α) :=
  (k, v) :: m.filter (fun p => !(p.1 == k))

/-! ## Analysis engine (`analysis.rs`) -/

/-- `analysis::FileInfo`. -/
structure FileInfo where
  path : String
  content : String
  language : String
  size : Nat
deriving DecidableEq, Repr

/-- The three metrics `analyze_repository_impl` inserts into its metrics map,
modeled as a record with the map's three fixed keys. Counters are `i32` in the
source; their wrap-around is unreachable in the modeled range. -/
structure Metrics where
  total_files : Int
  total_lines : Int
  analyzed_files : Int
deriving DecidableEq, Repr

/-- `analysis::RepoAnalysis`; `structureMap` is the `structure` field (a Lean
keyword), `generated_at` keeps the epoch-seconds timestamp whose RFC 3339
rendering the source stores. -/
structure RepoAnalysis where
  files : List FileInfo
  structureMap : List (String × List String)
  technologies : List String
  metrics : Metrics
  generated_at : Option Nat
  from_cache : Option Bool
deriving DecidableEq, Repr

/-- `cache::AnalysisCacheEntry`. -/
structure AnalysisCacheEntry where
  path : String
  last_modified : Nat
  cached_at : Nat
  analysis : RepoAnalysis
deriving DecidableEq, Repr

abbrev AnalysisCache := List (String × AnalysisCacheEntry)

/-- The analysis-cache freshness test of `analyze_repository_impl`:
`entry.last_modified >= last_modified && (now - entry.cached_at) < TTL_SECS`
with the subtraction performed in `u64`. -/
def analysisEntryValid (e : AnalysisCacheEntry) (mtime now : Nat) : Bool :=
  decide (mtime ≤ e.last_modified) && decide (u64Sub now e.cached_at < 3600)

/-- A file handed to the parallel processing phase: its path, parent directory
path, on-disk size, and text-read outcome. -/
structure WFile where
  path : String
  parent : String
  size : Nat
  content : Option String
deriving DecidableEq, Repr

/-- The candidate-file enumeration of `analyze_repository_impl`: every file of
the unbounded walk whose path passes `should_analyze_file`. The on-disk size is
modeled as the content's byte length (0 when unreadable). -/
def walkFiles (rootPath : String) (root : FSEntry) : List WFile :=
  (walkAux rootPath "" 0 none root).filterMap (fun w =>
    match w.node with
    | .file _ c =>
      if should_analyze_file w.path then
        some ⟨w.path, w.parent, (c.map utf8Len).getD 0, c⟩
      else none
    | .dir _ _ => none)

/-- `analysis::FileProcessResult`. -/
structure FileProcessResult where
  file_info : Option FileInfo
  lines : Nat
  language : String
  parent : Option String
  path : String
deriving DecidableEq, Repr

/-- Outcome of processing one candidate file: dropped on read failure,
a panic when the 5000-byte truncation slice misses a character boundary,
or a result. -/
inductive ProcOutcome where
  | errSkip
  | panicked
  | ok (r : FileProcessResult)
deriving DecidableEq, Repr

def truncationMarker : String := "...(truncated)"

/-- The per-file closure of the `par_iter().filter_map(...)` phase of
`analyze_repository_impl`. -/
def processFile (path parent : String) (size : Nat) (content : Option String) :
    ProcOutcome :=
  match content with
  | none => .errSkip
  | some c =>
    let lines := rustLinesCount c
    let language := get_language_from_extension path
    if utf8Len c < 100000 then
      if 5000 < utf8Len c then
        match takeBytes c.data 5000 with
        | some l =>
          .ok ⟨some ⟨path, String.mk l ++ truncationMarker, language, size⟩,
            lines, language, some parent, path⟩
        | none => .panicked
      else .ok ⟨some ⟨path, c, language, size⟩, lines, language, some parent, path⟩
    else .ok ⟨none, lines, language, some parent, path⟩

def ProcOutcome.isOk : ProcOutcome → Bool
  | .ok _ => true
  | _ => false

/-- The produced result; a dummy record for the non-`ok` outcomes. -/
def ProcOutcome.result : ProcOutcome → FileProcessResult
  | .ok r => r
  | _ => ⟨none, 0, "", none, ""⟩

/-- Stored content of the produced file record, when one was included. -/
def ProcOutcome.fileContent (o : ProcOutcome) : Option String :=
  o.result.file_info.map (fun fi => fi.content)

/-- Whether the file was included in `files` (size under the 100 000 bound). -/
def ProcOutcome.included (o : ProcOutcome) : Bool :=
  o.result.file_info.isSome

/-- Process the whole candidate list; `none` models the batch panicking. The
rayon `collect` preserves input order, so the sequential list is faithful. -/
def processAll : List WFile → Option (List FileProcessResult)
  | [] => some []
  | f :: fs =>
    match processFile f.path f.parent f.size f.content with
    | .panicked => none
    | .errSkip => processAll fs
    | .ok r => (processAll fs).map (fun rs => r :: rs)

/-- Accumulator of the sequential fold over process results. The technologies
list is the insertion-ordered carrier of the `HashSet`; `structureMap` is the
parent-directory grouping with `entry().or_default().push(..)` semantics. -/
structure FoldState where
  files : List FileInfo
  structureMap : List (String × List String)
  technologies : List String
  total_files : Int
  total_lines : Int
deriving DecidableEq, Repr

/-- `HashSet::insert` on the insertion-ordered carrier. -/
def insertSet (l : List String) (x : String) : List String :=
  if l.contains x then l else l ++ [x]

/-- `structure.entry(parent).or_default().push(name)`. -/
def insertAppend : List (String × List String) → String → String →
    List (String × List String)
  | [], k, v => [(k, [v])]
  | (k', vs) :: rest, k, v =>
    if k' == k then (k', vs ++ [v]) :: rest else (k', vs) :: insertAppend rest k v

/-- One iteration of the sequential fold of `analyze_repository_impl`. -/
def foldStep (st : FoldState) (r : FileProcessResult) : FoldState :=
  let st1 : FoldState :=
    { st with
      total_files := st.total_files + 1
      total_lines := st.total_lines + (r.lines : Int)
      technologies :=
        if r.language != "Unknown" then insertSet st.technologies r.language
        else st.technologies }
  match r.file_info with
  | some fi =>
    match r.parent with
    | some par =>
      { st1 with
        files := st1.files ++ [fi]
        structureMap := insertAppend st1.structureMap par (fileNameOf r.path) }
    | none => { st1 with files := st1.files ++ [fi] }
  | none => st1

def initFold : FoldState := ⟨[], [], [], 0, 0⟩

/-- The compute path of `analyze_repository_impl`: process every candidate in
order, fold sequentially, and assemble the analysis stamped fresh. `none`
models the panic of a truncation slice off a character boundary. -/
def computeAnalysis (files : List WFile) (now : Nat) : Option RepoAnalysis :=
  (processAll files).map (fun rs =>
    let st := rs.foldl foldStep initFold
    { files := st.files
      structureMap := st.structureMap
      technologies := st.technologies
      metrics := ⟨st.total_files, st.total_lines, (st.files.length : Int)⟩
      generated_at := some now
      from_cache := some false })

/-- Result of `analyze_repository_impl` on a valid root, paired with the
analysis cache as persisted at the end of the call. -/
inductive AnalyzeOutcome where
  | panicked
  | ok (analysis : RepoAnalysis) (cache : AnalysisCache)
deriving DecidableEq, Repr

/-- The cache-hit copy: `from_cache = true`, `generated_at` rebuilt from the
entry's `cached_at` write time. -/
def stampFromCache (e : AnalysisCacheEntry) : RepoAnalysis :=
  { e.analysis with from_cache := some true, generated_at := some e.cached_at }

/-- The cache-miss path of `analyze_repository_impl`: recompute, stamp fresh,
insert the new entry and persist. -/
def analyzeMiss (root : FSEntry) (rootPath : String) (mtime now : Nat)
    (cache : AnalysisCache) : AnalyzeOutcome :=
  match computeAnalysis (walkFiles rootPath root) now with
  | none => .panicked
  | some analysis =>
    .ok analysis (insertAssoc cache rootPath ⟨rootPath, mtime, now, analysis⟩)

/-- `analysis::analyze_repository_impl` on a valid root directory (the source
returns `Err("Invalid folder path")` before reaching this logic otherwise).
`mtime` is the root directory's current modification time, `now` the clock
reading, `cache` the loaded analysis cache. -/
def analyze_repository_impl (force : Bool) (root : FSEntry) (rootPath : String)
    (mtime now : Nat) (cache : AnalysisCache) : AnalyzeOutcome :=
  let hit : Option AnalysisCacheEntry :=
    if force then none
    else match lookupAssoc cache rootPath with
      | some e => if analysisEntryValid e mtime now then some e else none
      | none => none
  match hit with
  | some e => .ok (stampFromCache e) cache
  | none => analyzeMiss root rootPath mtime now cache

/-- Whether the call returned a cache-hit copy. -/
def AnalyzeOutcome.isFromCache : AnalyzeOutcome → Bool
  | .ok a _ => a.from_cache == some true
  | .panicked => false

/-- The returned analysis (dummy on panic), used to state witnesses. -/
def AnalyzeOutcome.okAnalysis : AnalyzeOutcome → RepoAnalysis
  | .ok a _ => a
  | .panicked => ⟨[], [], [], ⟨0, 0, 0⟩, none, none⟩

/-- The persisted cache (dummy on panic), used to state witnesses. -/
def AnalyzeOutcome.okCache : AnalyzeOutcome → AnalysisCache
  | .ok _ c => c
  | .panicked => []

/-! ## Project description derivation (`projects::get_project_description`) -/

/-- JSON values as `serde_json::Value` exposes them to this code. -/
inductive Json where
  | null
  | bool (b : Bool)
  | num (n : Int)
  | str (s : String)
  | arr (xs : List Json)
  | obj (fields : List (String × Json))

/-- `value["key"]`: the field of an object, `Null` otherwise or when absent. -/
def Json.get (j : Json) (k : String) : Json :=
  match j with
  | .obj fields =>
    match lookupAssoc fields k with
    | some v => v
    | none => .null
  | _ => .null

/-- `Value::as_str`. -/
def Json.asStr : Json → Option String
  | .str s => some s
  | _ => none

/-- The files `get_project_description` reads, with the package.json already
combined with its `serde_json` parse (`none` means the read or the parse
failed). README contents are `none` when the file is missing or unreadable,
listed in the probe order `README.md`, `README.txt`, `readme.md`,
`readme.txt`. -/
structure DescDir where
  packageJson : Option Json
  cargoToml : Option String
  readmes : List (Option String)

/-- The package.json clause: the `description` field whenever it is a string
(the source returns it even when it is empty). -/
def descFromPackageJson (d : DescDir) : Option String :=
  d.packageJson.bind (fun j => (j.get "description").asStr)

/-- The Cargo.toml clause: naive `'='` split of the first line starting with
`description`, trimmed and stripped of surrounding quotes (returned even when
empty; no further line is consulted when the split yields nothing). -/
def descFromCargo (d : DescDir) : Option String :=
  d.cargoToml.bind (fun s =>
    ((rustLines s).find? (fun line => strStartsWith line "description")).bind
      (fun line =>
        ((splitOnChar '=' line.data).get? 1).map
          (fun v => trimMatchesChar quoteChar (rustTrim (String.mk v)))))

/-- The README clause for one candidate file's content: only the first line is
consulted; it must be non-empty after trimming, shorter than 200 bytes, and
non-empty after stripping leading number signs. -/
def descFromReadme (content : String) : Option String :=
  let firstLine := rustTrim ((rustLines content).headD "")
  if firstLine != "" && decide (utf8Len firstLine < 200) then
    let cleaned := rustTrim (trimStartMatchesChar '#' firstLine)
    if cleaned != "" then some cleaned else none
  else none

/-- First `some` produced by a list of option sources. -/
def firstSome : List (Option String) → Option String
  | [] => none
  | o :: os =>
    match o with
    | some v => some v
    | none => firstSome os

/-- `projects::get_project_description`: package.json, then Cargo.toml, then
each README candidate in order. -/
def get_project_description (d : DescDir) : Option String :=
  match descFromPackageJson d with
  | some v => some v
  | none =>
    match descFromCargo d with
    | some v => some v
    | none => firstSome (d.readmes.map (fun c => c.bind descFromReadme))

/-! ### Claim-side description derivation (C6, as the claim words it) -/

/-- Keep a derived value only when non-empty, as claim C6 requires of every
source. -/
def nonEmptyOnly (o : Option String) : Option String :=
  o.bind (fun s => if s != "" then some s else none)

/-- Claim C6's README clause: the first non-empty line of the file, shorter
than 200 characters, with leading number-sign markup stripped. -/
def claimReadmeDesc (content : String) : Option String :=
  ((rustLines content).find? (fun l => rustTrim l != "")).bind (fun l =>
    let line := rustTrim l
    if decide (line.length < 200) then
      nonEmptyOnly (some (rustTrim (trimStartMatchesChar '#' line)))
    else none)

/-- Claim C6's derivation: the first source yielding a non-empty value among
package.json, Cargo.toml, and a README. -/
def claimDescription (d : DescDir) : Option String :=
  firstSome
    [nonEmptyOnly (descFromPackageJson d),
     nonEmptyOnly (descFromCargo d),
     firstSome (d.readmes.map (fun c => c.bind claimReadmeDesc))]

/-! ## Discovery engine (`projects.rs`) -/

/-- `projects::ProjectDirectory`. -/
structure ProjectDirectory where
  name : String
  path : String
  is_git_repo : Bool
  file_count : Nat
  description : Option String
  is_counting : Bool
deriving DecidableEq, Repr

/-- `cache::ProjectMetaCacheEntry`. -/
structure ProjectMetaCacheEntry where
  path : String
  description : Option String
  is_git_repo : Bool
  last_modified : Nat
  cached_at : Nat
deriving DecidableEq, Repr

/-- `cache::FileCountCache`. -/
structure FileCountCache where
  path : String
  count : Nat
  last_modified : Nat
  cached_at : Nat
deriving DecidableEq, Repr

abbrev MetaCache := List (String × ProjectMetaCacheEntry)
abbrev CountCache := List (String × FileCountCache)

/-- Project-meta freshness: dir mtime comparison plus 1 h TTL in `u64`. -/
def metaEntryValid (e : ProjectMetaCacheEntry) (mtime now : Nat) : Bool :=
  decide (mtime ≤ e.last_modified) && decide (u64Sub now e.cached_at < 3600)

/-- File-count freshness: dir mtime comparison plus 24 h TTL in `u64`. -/
def countEntryValid (e : FileCountCache) (mtime now : Nat) : Bool :=
  decide (mtime ≤ e.last_modified) && decide (u64Sub now e.cached_at < 86400)

/-- `projects::is_project_directory`'s indicator list. -/
def project_indicators : List String :=
  ["package.json", "Cargo.toml", "pom.xml", "build.gradle", "requirements.txt",
   "Gemfile", "go.mod", "composer.json", "project.clj", "mix.exs", ".csproj",
   "pubspec.yaml", "CMakeLists.txt", "Makefile", "README.md", "README.txt"]

/-- `path.join(name).exists()`: an entry of any kind with that name. -/
def hasChildNamed (children : List FSEntry) (nm : String) : Bool :=
  children.any (fun c => c.name == nm)

/-- The `read_dir` scan for a `*.csproj` entry. -/
def hasCsprojChild (children : List FSEntry) : Bool :=
  children.any (fun c => strEndsWith c.name ".csproj")

/-- `projects::is_project_directory` over the directory's entries. -/
def is_project_directory (children : List FSEntry) : Bool :=
  project_indicators.any (fun ind =>
    if strEndsWith ind ".csproj" then hasCsprojChild children
    else hasChildNamed children ind)

/-- The hidden/dependency skip list of `process_project_directory_fast`. -/
def skip_dir_names : List String :=
  ["node_modules", "target", "build", "dist", "vendor", "__pycache__"]

/-- The successful probe of `process_project_directory_fast`: resolve git
flag and description through the 1 h meta cache, the count through the 24 h
count cache or the fast estimate. -/
def probeProject (parentPath nm : String) (children : List FSEntry)
    (count_cache : CountCache) (meta_cache : MetaCache) (now : Nat)
    (mtimeOf : String → Nat) (descOf : String → Option String) :
    ProjectDirectory × Option ProjectMetaCacheEntry :=
  let pathStr := parentPath ++ "/" ++ nm
  let dirModified := mtimeOf pathStr
  let gitOnDisk := hasChildNamed children ".git"
  let hit : Option ProjectMetaCacheEntry :=
    match lookupAssoc meta_cache pathStr with
    | some m => if metaEntryValid m dirModified now then some m else none
    | none => none
  let isGit := match hit with | some m => m.is_git_repo | none => gitOnDisk
  let desc0 : Option String :=
    match hit with | some m => m.description | none => none
  let (desc, metaUpdate) :=
    match desc0 with
    | some v => (some v, (none : Option ProjectMetaCacheEntry))
    | none =>
      let d := descOf pathStr
      (d, some ⟨pathStr, d, isGit, dirModified, now⟩)
  let (fileCount, isCounting) :=
    match lookupAssoc count_cache pathStr with
    | some c =>
      if countEntryValid c dirModified now then (c.count, false)
      else (estimate_file_count pathStr (.dir nm children), true)
    | none => (estimate_file_count pathStr (.dir nm children), true)
  (⟨nm, pathStr, isGit, fileCount, desc, isCounting⟩, metaUpdate)

/-- `projects::process_project_directory_fast` for one immediate child of the
root. `mtimeOf` supplies each directory's modification time and `descOf` the
result of `get_project_description` for it (its filesystem reads are modeled
separately through `DescDir`); both are inputs of the probe's environment. -/
def process_project_directory_fast (parentPath : String) (e : FSEntry)
    (count_cache : CountCache) (meta_cache : MetaCache) (now : Nat)
    (mtimeOf : String → Nat) (descOf : String → Option String) :
    Option (ProjectDirectory × Option ProjectMetaCacheEntry) :=
  match e with
  | .file _ _ => none
  | .dir nm children =>
    if strStartsWith nm "." || decide (nm ∈ skip_dir_names) then none
    else if is_project_directory children then
      some (probeProject parentPath nm children count_cache meta_cache now
        mtimeOf descOf)
    else none

/-- Insertion sort implementing the stable `sort_by` at the end of
`list_project_directories`. -/
def insertSorted (le : ProjectDirectory → ProjectDirectory → Bool)
    (x : ProjectDirectory) : List ProjectDirectory → List ProjectDirectory
  | [] => [x]
  | y :: ys => if le x y then x :: y :: ys else y :: insertSorted le x ys

def sortProjects (le : ProjectDirectory → ProjectDirectory → Bool) :
    List ProjectDirectory → List ProjectDirectory
  | [] => []
  | x :: xs => insertSorted le x (sortProjects le xs)

/-- Case-insensitive name comparison used by the final sort
(`Char.toLower` models `to_lowercase` on the ASCII range). -/
def byLowerName (a b : ProjectDirectory) : Bool :=
  listLexLe (a.name.data.map Char.toLower) (b.name.data.map Char.toLower)

/-- The result-collection loop of `list_project_directories`: push the project
and apply its queued meta-cache write. -/
def collectStep (acc : List ProjectDirectory × MetaCache)
    (pr : ProjectDirectory × Option ProjectMetaCacheEntry) :
    List ProjectDirectory × MetaCache :=
  match pr.2 with
  | some upd => (acc.1 ++ [pr.1], insertAssoc acc.2 pr.1.path upd)
  | none => (acc.1 ++ [pr.1], acc.2)

/-- `projects::list_project_directories` on a valid root: enumerate immediate
child directories, probe each, queue meta-cache writes, persist the meta cache
(returned as the second component), and sort by case-insensitive name. -/
def list_project_directories (root : FSEntry) (rootPath : String)
    (count_cache : CountCache) (meta_cache : MetaCache) (now : Nat)
    (mtimeOf : String → Nat) (descOf : String → Option String) :
    List ProjectDirectory × MetaCache :=
  match root with
  | .file _ _ => ([], meta_cache)
  | .dir _ children =>
    let dirs := children.filter (fun c => c.isDir)
    let results := dirs.filterMap (fun c =>
      process_project_directory_fast rootPath c count_cache meta_cache now
        mtimeOf descOf)
    let folded := results.foldl collectStep ([], meta_cache)
    (sortProjects byLowerName folded.1, folded.2)

/-- `projects::update_project_file_count` (the `count_files` entry point) on a
valid project path: always recount exactly, then write the 24 h-TTL cache
entry. -/
def update_project_file_count (path : String) (e : FSEntry) (mtime now : Nat)
    (cache : CountCache) : Nat × CountCache :=
  let count := count_project_files path e
  (count, insertAssoc cache path ⟨path, count, mtime, now⟩)

/-! ## Supporting lemmas -/

mutual

/-- The unbounded walk's eligible-file count equals the recursive reference
count, at every node. -/
theorem walk_filter_count (p parent : String) (d : Nat) (e : FSEntry) :
    ((walkAux p parent d none e).filter (fun w => w.isEligibleFile)).length =
      refCountFiles p e := by
  cases e with
  | file n c =>
    simp only [walkAux, refCountFiles, List.filter, WEntry.isEligibleFile,
      FSEntry.isFile, Bool.true_and]
    cases h : should_analyze_file p <;> simp [h]
  | dir n children =>
    simp only [walkAux, refCountFiles, withinCap, if_pos, List.filter,
      WEntry.isEligibleFile, FSEntry.isFile, Bool.false_and]
    exact walkChildren_filter_count p d children

/-- List version of `walk_filter_count`. -/
theorem walkChildren_filter_count (p : String) (d : Nat) (es : List FSEntry) :
    ((walkChildren p d none es).filter (fun w => w.isEligibleFile)).length =
      refCountList p es := by
  cases es with
  | nil => simp [walkChildren, refCountList]
  | cons e es =>
    simp only [walkChildren, refCountList, List.filter_append, List.length_append]
    exact congrArg₂ (· + ·)
      (walk_filter_count (p ++ "/" ++ e.name) p (d + 1) e)
      (walkChildren_filter_count p d es)

end

/-- Splitting the stateful estimator fold into the exact bounded count plus the
extrapolated samples of every 10th depth-3 directory, with the directory
counter generalized. -/
theorem estimateFold_eq : ∀ (ws : List WEntry) (cnt dctr : Nat),
    estimateFold ws cnt dctr = cnt + ws.countP (fun w => w.isEligibleFile) +
      ((tenthFrom dctr (ws.filter isDirAtDepth3)).map
        (fun w => 10 * estimate_deep_files w.path w.node)).sum
  | [], cnt, dctr => by simp [estimateFold, tenthFrom]
  | w :: ws, cnt, dctr => by
    rw [estimateFold]
    have hfil : (w :: ws).filter isDirAtDepth3 =
        if isDirAtDepth3 w then w :: ws.filter isDirAtDepth3
        else ws.filter isDirAtDepth3 := List.filter_cons
    cases hd3 : (w.node.isDir && w.depth == 3) with
    | false =>
      have hd3' : isDirAtDepth3 w = false := hd3
      rw [hfil]
      simp only [hd3', if_neg, Bool.false_eq_true, not_false_eq_true,
        List.countP_cons, hd3]
      cases hf : w.isEligibleFile
      · simp [estimateFold_eq ws, hf]
      · simp [estimateFold_eq ws, hf]
        omega
    | true =>
      have hd3' : isDirAtDepth3 w = true := hd3
      rw [hfil]
      simp only [hd3', if_pos, List.countP_cons, hd3]
      have hten : tenthFrom dctr (w :: ws.filter isDirAtDepth3) =
          (if (dctr + 1) % 10 == 0 then [w] else []) ++
            tenthFrom (dctr + 1) (ws.filter isDirAtDepth3) := by
        simp only [tenthFrom, List.enumFrom, List.filterMap_cons]
        cases h10 : ((dctr + 1) % 10 == 0) <;> simp [h10]
      rw [hten]
      cases h10 : ((dctr + 1) % 10 == 0) <;>
        cases hf : w.isEligibleFile <;>
          simp [estimateFold_eq ws, hf, h10, Nat.mul_comm] <;> omega

/-! ## Claims -/

/-- C1: `count_files` (the `update_project_file_count` command) performs an
exact, unbounded-depth count of the eligible files of the project tree,
regardless of any cached count: its result equals the independent sequential
walk-and-count reference `refCountFiles`. -/
theorem count_files_exact (path : String) (e : FSEntry) (mtime now : Nat)
    (cache : CountCache) :
    (update_project_file_count path e mtime now cache).1 = refCountFiles path e := by
  simpa [update_project_file_count, count_project_files] using
    walk_filter_count path "" 0 e

/-- The claim-side sample coincides with `estimate_deep_files`. -/
theorem specSample_eq (w : WEntry) :
    specSample w = estimate_deep_files w.path w.node := by
  unfold specSample estimate_deep_files
  have hle : ((walkAux w.path "" 0 none w.node).take 50).length ≤ 50 := by
    rw [List.length_take]
    omega
  by_cases h : ((walkAux w.path "" 0 none w.node).take 50).length = 50
  · rw [if_pos h, if_pos (by omega), Nat.mul_comm]
  · rw [if_neg h, if_neg (by omega)]

/-- C2: the fast estimate equals the exact count of eligible files at depth at
most 3 plus, for every 10th directory encountered at exactly depth 3 in walk
order, 10 times the sampled count of that directory (at most 50 subtree
entries inspected, doubled when the cap was reached). -/
theorem estimate_equals_spec (path : String) (e : FSEntry) :
    estimate_file_count path e = estimateSpec path e := by
  simpa [estimate_file_count, estimateSpec, specSample_eq] using
    estimateFold_eq (walkAux path "" 0 (some 3) e) 0 0

/-- C4: a file whose text read fails is dropped entirely: the computed
analysis over any candidate list containing it equals the analysis over the
same list without it — no count, no structure entry, no technology, and no
reported error. -/
theorem unreadable_file_dropped (pre post : List WFile) (path parent : String)
    (size now : Nat) :
    computeAnalysis (pre ++ (⟨path, parent, size, none⟩ : WFile) :: post) now =
      computeAnalysis (pre ++ post) now := by
  have h : processAll (pre ++ (⟨path, parent, size, none⟩ : WFile) :: post) =
      processAll (pre ++ post) := by
    induction pre with
    | nil => simp [processAll, processFile]
    | cons f fs ih =>
      simp only [List.cons_append, processAll]
      cases processFile f.path f.parent f.size f.content <;> simp [ih]
  simp [computeAnalysis, h]

/-- C5: for a successfully read file processed to completion, the file record
is included exactly when the content is under 100 000 bytes; an included file
longer than 5000 bytes stores the first 5000 bytes plus the truncation marker,
an included file of at most 5000 bytes stores the full content; the fold
appends to `files` exactly the included record; and a file excluded by the
size bound still contributes to `total_files`, `total_lines`, and the
technology set. -/
theorem file_inclusion_rules (path parent : String) (size : Nat) (c : String)
    (st : FoldState)
    (h : utf8Len c ≤ 5000 ∨ (takeBytes c.data 5000).isSome = true) :
    (processFile path parent size (some c)).isOk = true ∧
    ((processFile path parent size (some c)).included = true ↔
      utf8Len c < 100000) ∧
    (utf8Len c < 100000 → 5000 < utf8Len c →
      (processFile path parent size (some c)).fileContent =
        some (byteTakeD c 5000 ++ truncationMarker)) ∧
    (utf8Len c < 100000 → utf8Len c ≤ 5000 →
      (processFile path parent size (some c)).fileContent = some c) ∧
    ((foldStep st (processFile path parent size (some c)).result).files =
      st.files ++ (processFile path parent size (some c)).result.file_info.toList) ∧
    (¬ utf8Len c < 100000 →
      (processFile path parent size (some c)).included = false ∧
      (foldStep st (processFile path parent size (some c)).result).total_files =
        st.total_files + 1 ∧
      (foldStep st (processFile path parent size (some c)).result).total_lines =
        st.total_lines + (rustLinesCount c : Int) ∧
      (foldStep st (processFile path parent size (some c)).result).technologies =
        (if get_language_from_extension path != "Unknown" then
          insertSet st.technologies (get_language_from_extension path)
        else st.technologies)) := by
  by_cases h100 : utf8Len c < 100000
  · by_cases h5 : 5000 < utf8Len c
    · have hsome : (takeBytes c.data 5000).isSome = true := by
        cases h with
        | inl hle => omega
        | inr hs => exact hs
      obtain ⟨l, hl⟩ := Option.isSome_iff_exists.mp hsome
      simp only [processFile, if_pos h100, if_pos h5, hl]
      refine ⟨rfl, ?_, ?_, ?_, ?_, ?_⟩
      · simp [ProcOutcome.included, ProcOutcome.result, h100]
      · intro _ _
        simp [ProcOutcome.fileContent, ProcOutcome.result, byteTakeD, hl]
      · intro _ hle; omega
      · simp [foldStep, ProcOutcome.result]
      · intro hc; exact absurd h100 hc
    · simp only [processFile, if_pos h100, if_neg h5]
      refine ⟨rfl, ?_, ?_, ?_, ?_, ?_⟩
      · simp [ProcOutcome.included, ProcOutcome.result, h100]
      · intro _ h5'; omega
      · intro _ _
        simp [ProcOutcome.fileContent, ProcOutcome.result]
      · simp [foldStep, ProcOutcome.result]
      · intro hc; exact absurd h100 hc
  · simp only [processFile, if_neg h100]
    refine ⟨rfl, ?_, ?_, ?_, ?_, ?_⟩
    · simp [ProcOutcome.included, ProcOutcome.result, h100]
    · intro hc; exact absurd hc h100
    · intro hc; exact absurd hc h100
    · simp [foldStep, ProcOutcome.result]
    · intro _
      refine ⟨?_, ?_, ?_, ?_⟩
      · simp [ProcOutcome.included, ProcOutcome.result]
      · simp [foldStep, ProcOutcome.result]
      · simp [foldStep, ProcOutcome.result]
      · simp [foldStep, ProcOutcome.result]

/-- All-ASCII content of 6000 bytes, exercising the truncation branch. -/
def includedContent : String := ⟨List.replicate 6000 'a'⟩

/-- 5001 bytes whose byte offset 5000 falls inside the final two-byte
character: the truncation slice target of claim C9. -/
def panicContent : String := ⟨List.replicate 4999 'a' ++ [Char.ofNat 233]⟩

theorem charBytes_append (l1 l2 : List Char) :
    charBytes (l1 ++ l2) = charBytes l1 + charBytes l2 := by
  induction l1 with
  | nil => simp [charBytes]
  | cons c cs ih => simp [charBytes, ih]; omega

theorem charBytes_replicate (n : Nat) (c : Char) :
    charBytes (List.replicate n c) = n * c.utf8Size := by
  induction n with
  | zero => simp [charBytes]
  | succ m ih => simp [List.replicate_succ, charBytes, ih]; ring

theorem takeBytes_zero (l : List Char) : takeBytes l 0 = some [] := by
  cases l <;> rfl

/-- Consuming `n` single-byte characters from the front of a byte slice leaves
a slice of the remainder. -/
theorem takeBytes_replicate_one_append (n k : Nat) (c : Char)
    (h1 : c.utf8Size = 1) (rest : List Char) :
    takeBytes (List.replicate n c ++ rest) (n + k) =
      (takeBytes rest k).map (fun l => List.replicate n c ++ l) := by
  induction n with
  | zero =>
    simp only [List.replicate, List.nil_append, Nat.zero_add]
    cases takeBytes rest k <;> simp
  | succ m ih =>
    rw [Nat.succ_add]
    simp only [List.replicate_succ, List.cons_append, takeBytes, h1, List.append_eq]
    have hle : 1 ≤ m + k + 1 := by omega
    rw [if_pos hle]
    have : m + k + 1 - 1 = m + k := by omega
    rw [this, ih]
    cases takeBytes rest k <;> simp

theorem utf8Len_includedContent : utf8Len includedContent = 6000 := by
  show charBytes (List.replicate 6000 'a') = 6000
  rw [charBytes_replicate]
  rfl

theorem takeBytes_includedContent :
    takeBytes includedContent.data 5000 = some (List.replicate 5000 'a') := by
  show takeBytes (List.replicate 6000 'a') 5000 = _
  have e1 : List.replicate 6000 'a' =
      List.replicate 5000 'a' ++ List.replicate 1000 'a' := by
    rw [← List.replicate_add]
  have e2 : (5000 : Nat) = 5000 + 0 := rfl
  rw [e1, e2, takeBytes_replicate_one_append 5000 0 'a' rfl]
  rw [takeBytes_zero, Option.map_some', List.append_nil]

theorem utf8Len_panicContent : utf8Len panicContent = 5001 := by
  show charBytes (List.replicate 4999 'a' ++ [Char.ofNat 233]) = 5001
  rw [charBytes_append, charBytes_replicate]
  rfl

theorem takeBytes_panicContent : takeBytes panicContent.data 5000 = none := by
  show takeBytes (List.replicate 4999 'a' ++ [Char.ofNat 233]) 5000 = none
  have e : (5000 : Nat) = 4999 + 1 := rfl
  rw [e, takeBytes_replicate_one_append 4999 1 'a' rfl]
  rfl

/-- Witness for C5: a 6000-byte file is included and stores exactly the first
5000 bytes plus the truncation marker. -/
theorem file_inclusion_rules_witness :
    (processFile "proj/a.txt" "proj" 6000 (some includedContent)).fileContent =
      some (byteTakeD includedContent 5000 ++ truncationMarker) :=
  (file_inclusion_rules "proj/a.txt" "proj" 6000 includedContent initFold
    (Or.inr (by rw [takeBytes_includedContent]; rfl))).2.2.1
    (by rw [utf8Len_includedContent]; omega)
    (by rw [utf8Len_includedContent]; omega)

/-- C9: the 5000-byte truncation slice is total whenever byte 5000 falls on a
character boundary (or the content is at most 5000 bytes), and there is a
concrete file longer than 5000 bytes whose processing panics because byte 5000
falls inside a multi-byte character. -/
theorem truncation_slice_panic (path parent : String) (size : Nat) (c : String)
    (h : utf8Len c ≤ 5000 ∨ (takeBytes c.data 5000).isSome = true) :
    processFile path parent size (some c) ≠ .panicked ∧
    processFile "proj/big.txt" "proj" 5001 (some panicContent) = .panicked := by
  constructor
  · by_cases h100 : utf8Len c < 100000
    · by_cases h5 : 5000 < utf8Len c
      · have hsome : (takeBytes c.data 5000).isSome = true := by
          cases h with
          | inl hle => omega
          | inr hs => exact hs
        obtain ⟨l, hl⟩ := Option.isSome_iff_exists.mp hsome
        simp [processFile, if_pos h100, if_pos h5, hl]
      · simp [processFile, if_pos h100, if_neg h5]
    · simp [processFile, if_neg h100]
  · simp [processFile, utf8Len_panicContent, takeBytes_panicContent]

/-- Witness for C9: a short file is processed without panic, while the
concrete 5001-byte file panics. -/
theorem truncation_slice_panic_witness :
    processFile "proj/ok.txt" "proj" 2 (some "ok") ≠ .panicked ∧
    processFile "proj/big.txt" "proj" 5001 (some panicContent) = .panicked :=
  truncation_slice_panic "proj/ok.txt" "proj" 2 "ok" (Or.inl (by decide))

/-! ### Cache arithmetic helpers -/

/-- Under a sane clock (`b ≤ a < 2^64`) the wrapping subtraction agrees with
mathematical subtraction. -/
theorem u64Sub_eq_sub {a b : Nat} (h1 : b ≤ a) (h2 : a < U64) :
    u64Sub a b = a - b := by
  unfold u64Sub
  have hb : b % U64 = b := Nat.mod_eq_of_lt (lt_of_le_of_lt h1 h2)
  have ha : a % U64 = a := Nat.mod_eq_of_lt h2
  rw [ha, hb]
  have hbU : b ≤ U64 := le_of_lt (lt_of_le_of_lt h1 h2)
  have h3 : a + (U64 - b) = U64 + (a - b) := by omega
  rw [h3, Nat.add_mod_left]
  exact Nat.mod_eq_of_lt (by omega)

/-- `HashMap` lookup after insert at the same key. -/
theorem lookupAssoc_insertAssoc {α : Type} (m : List (String × α)) (k : String)
    (v : α) : lookupAssoc (insertAssoc m k v) k = some v := by
  simp [insertAssoc, lookupAssoc]

/-- A freshly computed analysis is always stamped `from_cache = some false`. -/
theorem computeAnalysis_from_cache {fs : List WFile} {now : Nat}
    {a : RepoAnalysis} (h : computeAnalysis fs now = some a) :
    a.from_cache = some false := by
  unfold computeAnalysis at h
  cases hp : processAll fs with
  | none => rw [hp] at h; simp at h
  | some rs =>
    rw [hp] at h
    simp only [Option.map_some', Option.some.injEq] at h
    rw [← h]

/-- `analyze(false)` on a valid cache hit returns the stamped copy. -/
theorem analyze_eq_hit {root : FSEntry} {p : String} {mtime now : Nat}
    {cache : AnalysisCache} {e : AnalysisCacheEntry}
    (hl : lookupAssoc cache p = some e)
    (hv : analysisEntryValid e mtime now = true) :
    analyze_repository_impl false root p mtime now cache =
      .ok (stampFromCache e) cache := by
  simp [analyze_repository_impl, hl, hv]

/-- `analyze(false)` recomputes when the key is absent. -/
theorem analyze_eq_miss_none {root : FSEntry} {p : String} {mtime now : Nat}
    {cache : AnalysisCache} (hl : lookupAssoc cache p = none) :
    analyze_repository_impl false root p mtime now cache =
      analyzeMiss root p mtime now cache := by
  simp [analyze_repository_impl, hl]

/-- `analyze(false)` recomputes when the entry fails the freshness test. -/
theorem analyze_eq_miss_invalid {root : FSEntry} {p : String} {mtime now : Nat}
    {cache : AnalysisCache} {e : AnalysisCacheEntry}
    (hl : lookupAssoc cache p = some e)
    (hv : analysisEntryValid e mtime now = false) :
    analyze_repository_impl false root p mtime now cache =
      analyzeMiss root p mtime now cache := by
  simp [analyze_repository_impl, hl, hv]

/-- The recompute path never reports a cache hit. -/
theorem analyzeMiss_isFromCache (root : FSEntry) (p : String) (mtime now : Nat)
    (cache : AnalysisCache) :
    (analyzeMiss root p mtime now cache).isFromCache = false := by
  unfold analyzeMiss
  cases hc : computeAnalysis (walkFiles p root) now with
  | none => rfl
  | some a => simp [AnalyzeOutcome.isFromCache, computeAnalysis_from_cache hc]

/-- On success the recompute path persists exactly the freshly stamped
entry. -/
theorem analyzeMiss_ok_cache {root : FSEntry} {p : String} {mtime now : Nat}
    {cache : AnalysisCache} {a : RepoAnalysis} {c' : AnalysisCache}
    (h : analyzeMiss root p mtime now cache = .ok a c') :
    c' = insertAssoc cache p ⟨p, mtime, now, a⟩ := by
  unfold analyzeMiss at h
  cases hc : computeAnalysis (walkFiles p root) now with
  | none => rw [hc] at h; exact AnalyzeOutcome.noConfusion h
  | some a0 =>
    rw [hc] at h
    obtain ⟨ha, hc'⟩ := AnalyzeOutcome.ok.inj h
    rw [← hc', ha]

/-- A placeholder analysis value for concrete cache entries. -/
def emptyAnalysis : RepoAnalysis := ⟨[], [], [], ⟨0, 0, 0⟩, none, none⟩

/-- C10: every cache freshness test subtracts `cached_at` from `now` in
unsigned 64-bit arithmetic with no guard: under the precondition
`cached_at ≤ now` (and a sane clock) the subtraction is the mathematical one,
while a cache entry whose `cached_at` lies in the future underflows to a huge
value and makes all three freshness tests report stale even though the entry
is newer than `now`. -/
theorem ttl_subtraction_underflow :
    (∀ now ca, ca ≤ now → now < U64 → u64Sub now ca = now - ca) ∧
    u64Sub 1000 1001 = U64 - 1 ∧
    analysisEntryValid ⟨"p", 5, 1001, emptyAnalysis⟩ 5 1000 = false ∧
    metaEntryValid ⟨"p", none, false, 5, 1001⟩ 5 1000 = false ∧
    countEntryValid ⟨"p", 7, 5, 1001⟩ 5 1000 = false := by
  refine ⟨fun now ca h1 h2 => u64Sub_eq_sub h1 h2, ?_, ?_, ?_, ?_⟩
  · decide
  · decide
  · decide
  · decide

/-- Witness for C10: the guarded direction applied at a concrete sane clock. -/
theorem ttl_subtraction_underflow_witness : u64Sub 1000 900 = 100 :=
  ttl_subtraction_underflow.1 1000 900 (by omega) (by decide)

/-- C3: with a sane clock, `analyze(R, false)` returns a cache-hit copy
exactly when the analysis cache holds an entry under the raw root-path key
with `last_modified` at least the current mtime and age below the TTL; the
returned copy is the stored analysis stamped `from_cache = some true` with
`generated_at` equal to the entry's `cached_at` write time. -/
theorem analyze_cache_hit_iff (root : FSEntry) (p : String) (mtime now : Nat)
    (cache : AnalysisCache) (hnow : now < U64)
    (hsane : ∀ e, lookupAssoc cache p = some e → e.cached_at ≤ now) :
    ((analyze_repository_impl false root p mtime now cache).isFromCache = true ↔
      ∃ e, lookupAssoc cache p = some e ∧ mtime ≤ e.last_modified ∧
        now - e.cached_at < 3600) ∧
    (∀ e, lookupAssoc cache p = some e → mtime ≤ e.last_modified →
      now - e.cached_at < 3600 →
      analyze_repository_impl false root p mtime now cache =
        .ok { e.analysis with
              from_cache := some true,
              generated_at := some e.cached_at } cache) := by
  cases hl : lookupAssoc cache p with
  | none =>
    rw [analyze_eq_miss_none hl]
    constructor
    · rw [analyzeMiss_isFromCache]
      constructor
      · intro hfc
        exact Bool.noConfusion hfc
      · rintro ⟨e, he, -, -⟩
        exact Option.noConfusion he
    · intro e he
      exact Option.noConfusion he
  | some e =>
    have hca : e.cached_at ≤ now := hsane e hl
    have hu : u64Sub now e.cached_at = now - e.cached_at := u64Sub_eq_sub hca hnow
    by_cases hv : mtime ≤ e.last_modified ∧ now - e.cached_at < 3600
    · have hvalid : analysisEntryValid e mtime now = true := by
        simp [analysisEntryValid, hu, hv.1, hv.2]
      rw [analyze_eq_hit hl hvalid]
      constructor
      · constructor
        · intro _
          exact ⟨e, rfl, hv.1, hv.2⟩
        · intro _
          simp [AnalyzeOutcome.isFromCache, stampFromCache]
      · intro e' he' _ _
        cases Option.some.inj he'
        rfl
    · have hvalid : analysisEntryValid e mtime now = false := by
        simp only [analysisEntryValid, hu]
        rw [Classical.not_and_iff_or_not_not] at hv
        cases hv with
        | inl h => simp [h]
        | inr h => simp [h]
      rw [analyze_eq_miss_invalid hl hvalid]
      constructor
      · rw [analyzeMiss_isFromCache]
        constructor
        · intro hfc
          exact Bool.noConfusion hfc
        · rintro ⟨e', he', hlm, httl⟩
          cases Option.some.inj he'
          exact absurd ⟨hlm, httl⟩ hv
      · intro e' he' hlm httl
        cases Option.some.inj he'
        exact absurd ⟨hlm, httl⟩ hv

/-- A one-entry analysis cache holding a fresh, unexpired entry. -/
def c3entry : AnalysisCacheEntry := ⟨"r", 5, 100, emptyAnalysis⟩

def c3cache : AnalysisCache := [("r", c3entry)]

/-- Witness for C3: on a concrete fresh cache entry, `analyze` returns the
stored analysis stamped from-cache with the entry's write time. -/
theorem analyze_cache_hit_iff_witness :
    analyze_repository_impl false (.dir "r" []) "r" 5 1000 c3cache =
      .ok { c3entry.analysis with
            from_cache := some true,
            generated_at := some c3entry.cached_at } c3cache :=
  (analyze_cache_hit_iff (.dir "r" []) "r" 5 1000 c3cache (by decide)
      (by
        intro e he
        have h2 : c3entry = e := Option.some.inj he
        rw [← h2]
        decide)).2
    c3entry rfl (by decide) (by decide)

/-- C8: if `analyze(D, false)` completes freshly (and therefore persists its
entry), a second `analyze(D, false)` within the TTL and with the directory
mtime unchanged returns a from-cache copy with identical metrics. -/
theorem analyze_twice_cached (root : FSEntry) (p : String)
    (mtime now1 now2 : Nat) (cache : AnalysisCache) (a : RepoAnalysis)
    (c' : AnalysisCache)
    (h1 : analyze_repository_impl false root p mtime now1 cache = .ok a c')
    (h2 : a.from_cache = some false)
    (h3 : now1 ≤ now2) (h4 : now2 - now1 < 3600) (h5 : now2 < U64) :
    analyze_repository_impl false root p mtime now2 c' =
      .ok { a with from_cache := some true, generated_at := some now1 } c' ∧
    ({ a with
       from_cache := some true,
       generated_at := some now1 } : RepoAnalysis).metrics = a.metrics := by
  have hstep : c' = insertAssoc cache p ⟨p, mtime, now1, a⟩ := by
    cases hl : lookupAssoc cache p with
    | none =>
      rw [analyze_eq_miss_none hl] at h1
      exact analyzeMiss_ok_cache h1
    | some e =>
      cases hv : analysisEntryValid e mtime now1 with
      | true =>
        rw [analyze_eq_hit hl hv] at h1
        obtain ⟨ha, -⟩ := AnalyzeOutcome.ok.inj h1
        rw [← ha] at h2
        simp [stampFromCache] at h2
      | false =>
        rw [analyze_eq_miss_invalid hl hv] at h1
        exact analyzeMiss_ok_cache h1
  refine ⟨?_, rfl⟩
  have hl2 : lookupAssoc c' p =
      some (⟨p, mtime, now1, a⟩ : AnalysisCacheEntry) := by
    rw [hstep]
    exact lookupAssoc_insertAssoc cache p _
  have hvalid : analysisEntryValid ⟨p, mtime, now1, a⟩ mtime now2 = true := by
    simp [analysisEntryValid, u64Sub_eq_sub h3 h5, h4]
  rw [analyze_eq_hit hl2 hvalid]
  rfl

/-- A tiny concrete project tree for the C8 witness. -/
def c8tree : FSEntry := .dir "r" [.file "a.rs" (some "fn main")]

def c8firstAnalysis : RepoAnalysis :=
  (analyze_repository_impl false c8tree "r" 5 1000 []).okAnalysis

def c8firstCache : AnalysisCache :=
  (analyze_repository_impl false c8tree "r" 5 1000 []).okCache

/-- Witness for C8: the second call on the concrete tree returns the first
call's analysis stamped from-cache, with equal metrics. -/
theorem analyze_twice_cached_witness :
    analyze_repository_impl false c8tree "r" 5 2000 c8firstCache =
      .ok { c8firstAnalysis with
            from_cache := some true,
            generated_at := some 1000 } c8firstCache ∧
    ({ c8firstAnalysis with
       from_cache := some true,
       generated_at := some 1000 } : RepoAnalysis).metrics =
      c8firstAnalysis.metrics :=
  analyze_twice_cached c8tree "r" 5 1000 2000 [] c8firstAnalysis c8firstCache
    rfl rfl (by omega) (by omega) (by decide)

/-! ## C6: project description priority -/

/-- A package.json whose `description` is the empty string next to a README
starting with `Hello`. -/
def descDirEmptyPkg : DescDir :=
  ⟨some (Json.obj [("description", Json.str "")]), none,
   [some "Hello", none, none, none]⟩

/-- A README whose first line is blank and whose second line is a heading. -/
def descDirBlankFirst : DescDir :=
  ⟨none, none, [some "\n# Title\nbody", none, none, none]⟩

/-- C6 counterexample: the claim predicts `Hello` for a project whose
package.json description is empty (first non-empty source), but the source
returns the empty string; and the claim predicts `Title` for a README whose
first non-empty line is its second line, but the source consults only the
first line and returns nothing. -/
theorem description_priority_counterexample :
    get_project_description descDirEmptyPkg = some "" ∧
    claimDescription descDirEmptyPkg = some "Hello" ∧
    get_project_description descDirBlankFirst = none ∧
    claimDescription descDirBlankFirst = some "Title" := by
  refine ⟨?_, ?_, ?_, ?_⟩ <;> decide

/-- Amended C6 derivation: the first source that yields a value at all —
package.json's description string even when empty, Cargo.toml's parsed value
even when empty, and otherwise the first README candidate whose own first
line is non-empty, shorter than 200 bytes, and still non-empty after
number-sign stripping. -/
def amendedDescription (d : DescDir) : Option String :=
  firstSome
    [descFromPackageJson d,
     descFromCargo d,
     firstSome (d.readmes.map (fun c => c.bind descFromReadme))]

/-- C6 (amended): when no valid meta-cache hit supplies a description,
`get_project_description` tries package.json, Cargo.toml, then the README
candidates in order, and returns the first value produced — the package.json
and Cargo.toml sources may yield an empty string, and only the first line of
each README is consulted. -/
theorem description_priority_amended (d : DescDir) :
    get_project_description d = amendedDescription d := by
  unfold get_project_description amendedDescription
  cases descFromPackageJson d with
  | some v => rfl
  | none =>
    cases descFromCargo d with
    | some v => rfl
    | none =>
      simp only [firstSome]
      cases firstSome (d.readmes.map (fun c => c.bind descFromReadme)) <;> rfl

/-! ## C7: membership in `list_projects` -/

theorem any_insertSorted (le : ProjectDirectory → ProjectDirectory → Bool)
    (p : ProjectDirectory → Bool) (x : ProjectDirectory) :
    ∀ l : List ProjectDirectory,
      (insertSorted le x l).any p = (p x || l.any p)
  | [] => by simp [insertSorted]
  | z :: zs => by
    simp only [insertSorted]
    cases h : le x z with
    | true => simp
    | false =>
      simp only [Bool.false_eq_true, if_false, List.any_cons,
        any_insertSorted le p x zs]
      cases p x <;> cases p z <;> simp

theorem any_sortProjects (le : ProjectDirectory → ProjectDirectory → Bool)
    (p : ProjectDirectory → Bool) :
    ∀ l : List ProjectDirectory, (sortProjects le l).any p = l.any p
  | [] => rfl
  | x :: xs => by
    simp only [sortProjects, any_insertSorted, any_sortProjects le p xs,
      List.any_cons]

/-- The collection loop returns the probed projects in order. -/
theorem collect_fst (results : List (ProjectDirectory × Option ProjectMetaCacheEntry)) :
    ∀ acc : List ProjectDirectory × MetaCache,
      (results.foldl collectStep acc).1 = acc.1 ++ results.map Prod.fst := by
  induction results with
  | nil => intro acc; simp
  | cons r rs ih =>
    intro acc
    rw [List.foldl_cons, ih]
    cases hr : r.2 <;> simp [collectStep, hr]

/-- A probed child project carries the joined path and the directory name. -/
theorem process_fast_path {rootPath nm : String} {children : List FSEntry}
    {cc : CountCache} {mc : MetaCache} {now : Nat} {mtimeOf : String → Nat}
    {descOf : String → Option String}
    {pr : ProjectDirectory × Option ProjectMetaCacheEntry}
    (h : process_project_directory_fast rootPath (.dir nm children) cc mc now
      mtimeOf descOf = some pr) :
    pr.1.path = rootPath ++ "/" ++ nm ∧ pr.1.name = nm := by
  dsimp only [process_project_directory_fast] at h
  by_cases hsk : (strStartsWith nm "." || decide (nm ∈ skip_dir_names)) = true
  · rw [if_pos hsk] at h
    exact Option.noConfusion h
  · rw [if_neg hsk] at h
    by_cases hp : is_project_directory children = true
    · rw [if_pos hp] at h
      cases Option.some.inj h
      exact ⟨rfl, rfl⟩
    · rw [if_neg hp] at h
      exact Option.noConfusion h

/-- The probe keeps exactly the non-hidden, non-dependency children holding a
marker entry. -/
theorem process_fast_isSome (rootPath nm : String) (children : List FSEntry)
    (cc : CountCache) (mc : MetaCache) (now : Nat) (mtimeOf : String → Nat)
    (descOf : String → Option String) :
    (process_project_directory_fast rootPath (.dir nm children) cc mc now
      mtimeOf descOf).isSome =
      (!(strStartsWith nm "." || decide (nm ∈ skip_dir_names)) &&
        is_project_directory children) := by
  unfold process_project_directory_fast
  cases hs : strStartsWith nm "." <;> by_cases hk : nm ∈ skip_dir_names <;>
    cases hp : is_project_directory children <;>
      simp [hs, hk, hp]

/-- Equal strings after a common prefix have equal tails. -/
theorem string_append_left_cancel {s a b : String} (h : s ++ a = s ++ b) :
    a = b := by
  have hd : s.data ++ a.data = s.data ++ b.data := by
    have h2 := congrArg String.data h
    simpa [String.data_append] using h2
  exact congrArg String.mk (List.append_cancel_left hd)

/-- C7: with distinct child names, an immediate child directory of the root
appears in the `list_projects` result (identified by its joined path) exactly
when its name is not hidden, not a dependency/build directory name, and its
entries contain a project marker. -/
theorem list_projects_membership (rootName rootPath : String)
    (children : List FSEntry) (cc : CountCache) (mc : MetaCache) (now : Nat)
    (mtimeOf : String → Nat) (descOf : String → Option String)
    (nm : String) (sub : List FSEntry)
    (hmem : FSEntry.dir nm sub ∈ children)
    (hnd : (children.map FSEntry.name).Nodup) :
    ((list_project_directories (.dir rootName children) rootPath cc mc now
        mtimeOf descOf).1.any (fun pr => pr.path == rootPath ++ "/" ++ nm)) =
      (!strStartsWith nm "." && !decide (nm ∈ skip_dir_names) &&
        is_project_directory sub) := by
  have hfst : (list_project_directories (.dir rootName children) rootPath cc mc
      now mtimeOf descOf).1 =
      sortProjects byLowerName
        (((children.filter (fun c => c.isDir)).filterMap (fun c =>
          process_project_directory_fast rootPath c cc mc now mtimeOf
            descOf)).map Prod.fst) := by
    dsimp only [list_project_directories]
    rw [collect_fst]
    rw [List.nil_append]
  rw [hfst, any_sortProjects, Bool.eq_iff_iff]
  constructor
  · intro hany
    obtain ⟨pd, hpd, hpath⟩ := List.any_eq_true.mp hany
    obtain ⟨pr, hpr, rfl⟩ := List.mem_map.mp hpd
    obtain ⟨c, hcmem, hproc⟩ := List.mem_filterMap.mp hpr
    have hcmem' := List.mem_filter.mp hcmem
    cases c with
    | file n cont => simp [FSEntry.isDir] at hcmem'
    | dir nm' sub' =>
      obtain ⟨hpath', -⟩ := process_fast_path hproc
      have heq : (rootPath ++ "/") ++ nm' = (rootPath ++ "/") ++ nm := by
        rw [← hpath']
        exact eq_of_beq hpath
      have hnm : nm' = nm := string_append_left_cancel heq
      have hceq : FSEntry.dir nm' sub' = FSEntry.dir nm sub := by
        apply List.inj_on_of_nodup_map hnd hcmem'.1 hmem
        simp [FSEntry.name, hnm]
      obtain ⟨-, hsub⟩ := FSEntry.dir.inj hceq
      have hsome : (process_project_directory_fast rootPath (.dir nm' sub') cc
          mc now mtimeOf descOf).isSome = true := by
        rw [hproc]; rfl
      rw [process_fast_isSome] at hsome
      rw [hnm, hsub] at hsome
      simp only [Bool.not_or] at hsome
      simpa [Bool.and_assoc] using hsome
  · intro hcond
    simp only [Bool.and_eq_true, Bool.not_eq_true'] at hcond
    obtain ⟨⟨hs, hk⟩, hp⟩ := hcond
    have hsome : (process_project_directory_fast rootPath (.dir nm sub) cc mc
        now mtimeOf descOf).isSome = true := by
      rw [process_fast_isSome, hs, hk, hp]
      rfl
    obtain ⟨pr, hproc⟩ := Option.isSome_iff_exists.mp hsome
    apply List.any_eq_true.mpr
    refine ⟨pr.1, ?_, ?_⟩
    · apply List.mem_map.mpr
      refine ⟨pr, ?_, rfl⟩
      apply List.mem_filterMap.mpr
      exact ⟨.dir nm sub, List.mem_filter.mpr ⟨hmem, rfl⟩, hproc⟩
    · rw [(process_fast_path hproc).1]
      exact beq_self_eq_true _

/-- The marker-bearing child used by the C7 witness. -/
def c7sub : List FSEntry := [.file "README.md" (some "Hi")]

/-- Witness for C7: a root with a single README-bearing child; the membership
test agrees with the marker predicate. -/
theorem list_projects_membership_witness :
    ((list_project_directories (.dir "root" [.dir "proj" c7sub]) "base" [] []
        1000 (fun _ => 5) (fun _ => none)).1.any
      (fun pr => pr.path == "base" ++ "/" ++ "proj")) =
      (!strStartsWith "proj" "." && !decide ("proj" ∈ skip_dir_names) &&
        is_project_directory c7sub) :=
  list_projects_membership "root" "base" [.dir "proj" c7sub] [] [] 1000
    (fun _ => 5) (fun _ => none) "proj" c7sub (List.mem_singleton.mpr rfl)
    (by decide)

end RepoMuse
